import Mathlib

set_option maxRecDepth 262144
set_option maxHeartbeats 4000000

/-!
Verification of the resume-parsing pipeline of `pdf_parser.py`
(`ResumeParser.parse_resume` and its helper extractors).

The embedding mirrors the Python source:

* Python strings are `String` / `List Char`; all string helpers
  (`strip`, `lower`, `title`, `isupper`, `split`, substring test `in`)
  are re-implemented for the ASCII fragment the parser manipulates.
* Python `re` patterns are embedded as an abstract syntax tree `RE`
  together with a CPS backtracking matcher `matchRE` that reproduces
  Python's leftmost / ordered-alternation / greedy-vs-lazy semantics
  for the constructs the source uses (character classes, literals,
  greedy and lazy repetition, option, ordered alternation, groups,
  word boundary, end anchors).  `findAll` reproduces
  `re.findall` / `re.finditer` (non-overlapping, leftmost, scanning
  left to right).
* Python floats are modelled as exact fractions (`Frac`);
  `round(x, 2)` is modelled as exact half-to-even rounding at two
  decimals (the duration figures checked below are exactly
  representable, so the binary floating-point detour of CPython does
  not change any value used here).
* Python `set` is modelled as a first-insertion-ordered duplicate-free
  list; claims about set contents are stated via membership, which is
  independent of Python's unspecified set iteration order.
-/

namespace Resume

/-! ## Python string helpers -/

/-- Python whitespace for `str.strip`, `str.split()` and `\s` (ASCII range). -/
def pyWsChar (c : Char) : Bool :=
  c = ' ' || c = '\t' || c = '\n' || c = '\r' || c = '\x0b' || c = '\x0c'

/-- `str.strip()` : drop leading and trailing whitespace. -/
def pyStrip (l : List Char) : List Char :=
  ((l.dropWhile pyWsChar).reverse.dropWhile pyWsChar).reverse

/-- `str.lower()` (ASCII). -/
def pyLowerCL (l : List Char) : List Char := l.map Char.toLower

def pyLowerStr (s : String) : String := String.mk (pyLowerCL s.data)

/-- Number of whitespace-separated tokens, i.e. `len(s.split())`. -/
def countTokensAux : List Char → Bool → Nat
  | [], _ => 0
  | c :: r, inw =>
    if pyWsChar c then countTokensAux r false
    else (if inw then 0 else 1) + countTokensAux r true

def countTokens (l : List Char) : Nat := countTokensAux l false

/-- The whitespace-separated tokens themselves, i.e. `s.split()`. -/
def pySplitTokensOf (pieces : List (List Char)) : List (List Char) :=
  pieces.filter (fun t => !t.isEmpty)

/-- `str.isupper()` : at least one cased character and every cased character
is uppercase (ASCII). -/
def pyIsUpper (l : List Char) : Bool :=
  l.any (fun c => c.isAlpha) && l.all (fun c => !c.isAlpha || c.isUpper)

/-- `str.title()` (ASCII): a letter that follows a non-letter is uppercased,
any other letter is lowercased, non-letters are unchanged. -/
def pyTitleAux : Bool → List Char → List Char
  | _, [] => []
  | prevAlpha, c :: r =>
    (if c.isAlpha then (if prevAlpha then c.toLower else c.toUpper) else c)
      :: pyTitleAux c.isAlpha r

def pyTitle (s : String) : String := String.mk (pyTitleAux false s.data)

/-- Python's substring test `needle in hay`. -/
def containsSub : List Char → List Char → Bool
  | n, [] => n.isEmpty
  | n, c :: r => n.isPrefixOf (c :: r) || containsSub n r

/-- Split a list at every element satisfying `p`, keeping empty pieces,
like `re.split` on a single-character class. -/
def splitOnPred (p : Char → Bool) : List Char → List (List Char)
  | [] => [[]]
  | c :: r =>
    if p c then [] :: splitOnPred p r
    else
      match splitOnPred p r with
      | [] => [[c]]
      | h :: t => (c :: h) :: t

/-- `s.split()` : whitespace-separated tokens, empties dropped. -/
def pySplitTokens (l : List Char) : List (List Char) :=
  pySplitTokensOf (splitOnPred pyWsChar l)

/-- Python truthiness for strings: `a or b`. -/
def pyOr (a b : String) : String := if a = "" then b else a

def joinNL (ls : List String) : String := String.intercalate "\n" ls

/-- `s.split('\n')`. -/
def splitLines (text : String) : List String :=
  (splitOnPred (fun c => c = '\n') text.data).map String.mk

/-! ## Exact fractions standing in for Python floats

Python floats are modelled as exact fractions (every duration figure the
parser manipulates is a small decimal, and every figure compared against
the spec is exactly representable in binary floating point, so exact
rational arithmetic agrees with CPython on all values considered here).
`Frac` keeps an always-positive denominator; arithmetic is plain integer
arithmetic, so everything below evaluates inside the kernel. -/

structure Frac where
  num : Int
  den : Nat
  den_pos : 0 < den

instance : DecidableEq Frac := fun a b =>
  if h : a.num = b.num ∧ a.den = b.den then
    isTrue (by cases a; cases b; simp_all)
  else
    isFalse (by intro e; cases e; exact h ⟨rfl, rfl⟩)

def Frac.ofNat (n : Nat) : Frac := ⟨n, 1, Nat.one_pos⟩

def Frac.add (a b : Frac) : Frac :=
  ⟨a.num * b.den + b.num * a.den, a.den * b.den, Nat.mul_pos a.den_pos b.den_pos⟩

def Frac.divPos (a : Frac) (n : Nat) (h : 0 < n) : Frac :=
  ⟨a.num, a.den * n, Nat.mul_pos a.den_pos h⟩

def Frac.mulNat (a : Frac) (n : Nat) : Frac := ⟨a.num * n, a.den, a.den_pos⟩

/-- Reduce to lowest terms (canonical form for equality statements). -/
def Frac.normalize (n : Int) (d : Nat) (hd : 0 < d) : Frac :=
  let g := Nat.gcd n.natAbs d
  ⟨n / (g : Int), d / g, by
    have hg : 0 < g := Nat.gcd_pos_of_pos_right _ hd
    exact Nat.div_pos (Nat.le_of_dvd hd (Nat.gcd_dvd_right _ _)) hg⟩

/-- Shorthand for the canonical fraction `n / d`. -/
def fr (n : Int) (d : Nat) : Frac :=
  if hd : 0 < d then Frac.normalize n d hd else Frac.ofNat 0

/-- The rational order, `a ≤ b` by cross multiplication (denominators are
positive by construction). -/
def Frac.le (a b : Frac) : Prop := a.num * (b.den : Int) ≤ b.num * (a.den : Int)

instance (a b : Frac) : Decidable (Frac.le a b) := by
  unfold Frac.le; infer_instance

/-- Python `max` of two values: keeps the first on ties. -/
def Frac.maxF (a b : Frac) : Frac :=
  if a.num * (b.den : Int) < b.num * (a.den : Int) then b else a

/-- Digits (with at most one dot) to an exact fraction, e.g. "2.5" to 5/2
(Python `float(...)` on the strings matched by the duration patterns). -/
def natOfDigits (l : List Char) : Nat :=
  l.foldl (fun n c => n * 10 + (c.toNat - 48)) 0

def parseDec (l : List Char) : Frac :=
  let ip := l.takeWhile (fun c => c ≠ '.')
  let fp := l.dropWhile (fun c => c ≠ '.')
  match fp with
  | [] => Frac.ofNat (natOfDigits ip)
  | _ :: fl =>
    Frac.add (Frac.ofNat (natOfDigits ip))
      (Frac.divPos (Frac.ofNat (natOfDigits fl)) (10 ^ fl.length)
        (Nat.pos_pow_of_pos _ (by decide)))

/-- Round half to even to an integer (CPython `round` on exact values). -/
def roundHev (q : Frac) : Int :=
  let f : Int := Int.fdiv q.num q.den
  let rnum : Int := q.num - f * q.den
  if 2 * rnum < (q.den : Int) then f
  else if (q.den : Int) < 2 * rnum then f + 1
  else if f % 2 = 0 then f else f + 1

/-- `round(x, 2)`, returned in canonical form. -/
def round2 (q : Frac) : Frac :=
  fr (roundHev (q.mulNat 100)) 100

/-! ## A backtracking regex engine with Python `re` semantics -/

/-- Regex AST: character class, sequencing, ordered alternation,
greedy/lazy star (the `Bool` is the greediness flag), greedy/lazy option,
numbered capture group, word boundary `\b`, `\Z`, and `$`. -/
inductive RE where
  | eps : RE
  | cls : (Char → Bool) → RE
  | seq : RE → RE → RE
  | alt : RE → RE → RE
  | star : Bool → RE → RE
  | opt : Bool → RE → RE
  | group : Nat → RE → RE
  | wordB : RE
  | eosRE : RE
  | dollarRE : RE

/-- Matcher state: absolute position, previous character (for `\b`),
remaining input, captures recorded so far (group index, start, end). -/
structure MState where
  pos : Nat
  prev : Option Char
  rest : List Char
  caps : List (Nat × Nat × Nat)

def isWordChar (c : Char) : Bool := c.isAlphanum || c = '_'

def isWordO : Option Char → Bool
  | none => false
  | some c => isWordChar c

/-- Iterate a star body.  `mb` is the matcher for the body (a closure over
`matchRE`), `g` the greediness flag.  Greedy tries one more iteration first
and falls back to the continuation; lazy tries the continuation first.  An
iteration is only continued if it consumed at least one character, as in
Python, so a fuel of `rest.length + 1` at entry is always enough and the
fuel bound is never the reason an iteration stops. -/
def starIter (g : Bool) (mb : MState → (MState → Option MState) → Option MState) :
    Nat → MState → (MState → Option MState) → Option MState
  | 0, st, k => k st
  | f + 1, st, k =>
    if g then
      match mb st (fun st2 => if st.pos < st2.pos then starIter g mb f st2 k else none) with
      | some m => some m
      | none => k st
    else
      match k st with
      | some m => some m
      | none => mb st (fun st2 => if st.pos < st2.pos then starIter g mb f st2 k else none)

/-- CPS backtracking matcher.  `k` is the continuation for the rest of the
pattern; alternation and option try their preferred branch first and fall
back on failure, exactly as Python's `re` does. -/
def matchRE (r : RE) (st : MState) (k : MState → Option MState) :
    Option MState :=
  match r with
  | .eps => k st
  | .cls p =>
    match st.rest with
    | [] => none
    | c :: rs => if p c then k ⟨st.pos + 1, some c, rs, st.caps⟩ else none
  | .seq a b => matchRE a st (fun st2 => matchRE b st2 k)
  | .alt a b =>
    match matchRE a st k with
    | some m => some m
    | none => matchRE b st k
  | .opt g body =>
    if g then
      match matchRE body st k with
      | some m => some m
      | none => k st
    else
      match k st with
      | some m => some m
      | none => matchRE body st k
  | .star g body =>
    starIter g (fun st2 k2 => matchRE body st2 k2) (st.rest.length + 1) st k
  | .group i body =>
    matchRE body st
      (fun st2 => k ⟨st2.pos, st2.prev, st2.rest, (i, st.pos, st2.pos) :: st2.caps⟩)
  | .wordB => if isWordO st.prev != isWordO st.rest.head? then k st else none
  | .eosRE => match st.rest with | [] => k st | _ => none
  | .dollarRE => match st.rest with | [] => k st | ['\n'] => k st | _ => none

/-- One match: span `[mstart, mend)`, captures, and the scanner state
after the match (for `finditer`-style continuation). -/
structure MatchRes where
  mstart : Nat
  mend : Nat
  caps : List (Nat × Nat × Nat)
  rest : List Char
  prev : Option Char
deriving DecidableEq

/-- Leftmost search: try a match at each position, left to right. -/
def trySearch (r : RE) : Nat → Option Char → List Char → Option MatchRes
  | pos, prev, [] =>
    match matchRE r ⟨pos, prev, [], []⟩ (fun st => some st) with
    | some st => some ⟨pos, st.pos, st.caps, st.rest, st.prev⟩
    | none => none
  | pos, prev, c :: rest2 =>
    match matchRE r ⟨pos, prev, c :: rest2, []⟩ (fun st => some st) with
    | some st => some ⟨pos, st.pos, st.caps, st.rest, st.prev⟩
    | none => trySearch r (pos + 1) (some c) rest2

/-- All non-overlapping matches, leftmost first (Python `re.findall` /
`re.finditer`); after an empty match the scan advances by one. -/
def findAllAux (r : RE) : Nat → Nat → Option Char → List Char → List MatchRes
  | 0, _, _, _ => []
  | fuel + 1, pos, prev, rest =>
    match trySearch r pos prev rest with
    | none => []
    | some m =>
      if m.mstart < m.mend then
        m :: findAllAux r fuel m.mend m.prev m.rest
      else
        match m.rest with
        | [] => [m]
        | c :: r2 => m :: findAllAux r fuel (m.mend + 1) (some c) r2

def findAll (r : RE) (s : List Char) : List MatchRes :=
  findAllAux r (s.length + 1) 0 none s

/-- Substring of `s` spanning `[a, b)`. -/
def subCL (s : List Char) (a b : Nat) : List Char := (s.drop a).take (b - a)

/-- Content of capture group `i` (most recent capture wins, like Python). -/
def capStr (s : List Char) (caps : List (Nat × Nat × Nat)) (i : Nat) :
    Option (List Char) :=
  (caps.find? (fun t => t.1 = i)).map (fun t => subCL s t.2.1 t.2.2)

/-! ### Pattern building blocks -/

def chRE (c : Char) : RE := .cls (fun x => x = c)

/-- A literal string, matched case-sensitively. -/
def litRE (s : String) : RE :=
  s.data.foldr (fun c acc => .seq (chRE c) acc) .eps

/-- A literal string (given lowercase) matched case-insensitively
(`re.IGNORECASE`). -/
def litCIRE (s : String) : RE :=
  s.data.foldr (fun c acc => .seq (.cls (fun x => x.toLower = c)) acc) .eps

def clsStar (p : Char → Bool) : RE := .star true (.cls p)

def clsPlus (p : Char → Bool) : RE := .seq (.cls p) (clsStar p)

def altList : List RE → RE
  | [] => .eps
  | [r] => r
  | r :: rest => .alt r (altList rest)

def digitC (c : Char) : Bool := c.isDigit

def digitsN : Nat → RE
  | 0 => .eps
  | n + 1 => .seq (.cls digitC) (digitsN n)

/-! ## The concrete patterns of `ResumeParser`

Each definition is a direct transcription of a Python regex from
`pdf_parser.py`, with `re.IGNORECASE` baked into the character
classes / literals where the source passes that flag. -/

/-- Local part class of the email pattern: `[A-Za-z0-9._%+-]`. -/
def localChar (c : Char) : Bool :=
  c.isAlphanum || c = '.' || c = '_' || c = '%' || c = '+' || c = '-'

/-- Domain class of the email pattern: `[A-Za-z0-9.-]`. -/
def domainChar (c : Char) : Bool := c.isAlphanum || c = '.' || c = '-'

/-- TLD class of the email pattern: `[A-Z|a-z]` (the `|` is part of the
class in the source). -/
def tldChar (c : Char) : Bool := c.isAlpha || c = '|'

/-- `\b[A-Za-z0-9._%+-]+@[A-Za-z0-9.-]+\.[A-Z|a-z]{2,}\b` -/
def emailRE : RE :=
  .seq .wordB (.seq (clsPlus localChar) (.seq (chRE '@')
    (.seq (clsPlus domainChar) (.seq (chRE '.')
      (.seq (.seq (.cls tldChar) (clsPlus tldChar)) .wordB)))))

def sepC (c : Char) : Bool := c = '-' || c = '.' || pyWsChar c

def d29 (c : Char) : Bool := '2' ≤ c && c ≤ '9'

/-- `(?:\+?1[-.\s]?)?\(?[2-9]\d{2}\)?[-.\s]?\d{3}[-.\s]?\d{4}` -/
def phoneRE : RE :=
  .seq (.opt true (.seq (.opt true (chRE '+')) (.seq (chRE '1') (.opt true (.cls sepC)))))
    (.seq (.opt true (chRE '(')) (.seq (.cls d29) (.seq (digitsN 2)
      (.seq (.opt true (chRE ')')) (.seq (.opt true (.cls sepC))
        (.seq (digitsN 3) (.seq (.opt true (.cls sepC)) (digitsN 4))))))))

def alphaC (c : Char) : Bool := c.isAlpha

def upperC (c : Char) : Bool := c.isUpper

/-- `[A-Z][a-zA-Z]+` -/
def nameToken : RE := .seq (.cls upperC) (clsPlus alphaC)

/-- `\s+` -/
def ws1 : RE := clsPlus pyWsChar

/-- `\s*` -/
def wsStar : RE := clsStar pyWsChar

/-- `^[A-Z][a-zA-Z]+\s+[A-Z][a-zA-Z]+(?:\s+[A-Z][a-zA-Z]+)?$` (the `^` is
realised by only ever matching this pattern at position 0, like
`re.match`). -/
def nameREfull : RE :=
  .seq nameToken (.seq ws1 (.seq nameToken
    (.seq (.opt true (.seq ws1 nameToken)) .dollarRE)))

def notNLC (c : Char) : Bool := c ≠ '\n'

/-- `(?P<years>\d+(?:\.\d+)?)` as group `g`. -/
def numRE (g : Nat) : RE :=
  .group g (.seq (clsPlus digitC) (.opt true (.seq (chRE '.') (clsPlus digitC))))

/-- `(?P<n>\d+)` as group `g`. -/
def intRE (g : Nat) : RE := .group g (clsPlus digitC)

/-- `\s+and\s+(?P<months>\d+)\s*months?` (group 2 is `months`). -/
def exp1Tail : RE :=
  .seq ws1 (.seq (litRE "and") (.seq ws1 (.seq (intRE 2)
    (.seq wsStar (.seq (litRE "month") (.opt true (chRE 's')))))))

/-- `(?P<years>\d+(?:\.\d+)?)\s*(?:\+)?\s*years?(?:\s+and\s+(?P<months>\d+)\s*months?)?` -/
def exp1RE : RE :=
  .seq (numRE 1) (.seq wsStar (.seq (.opt true (chRE '+')) (.seq wsStar
    (.seq (litRE "year") (.seq (.opt true (chRE 's')) (.opt true exp1Tail))))))

/-- `(?P<months_only>\d+)\s*months?\s+(?:of\s+)?experience` (group 3). -/
def exp2RE : RE :=
  .seq (intRE 3) (.seq wsStar (.seq (litRE "month") (.seq (.opt true (chRE 's'))
    (.seq ws1 (.seq (.opt true (.seq (litRE "of") ws1)) (litRE "experience"))))))

/-- `experience.*?(?P<years>\d+(?:\.\d+)?)\s*(?:\+)?\s*years?` (the `.` does
not match a newline: no `re.DOTALL` on this pattern). -/
def exp3RE : RE :=
  .seq (litRE "experience") (.seq (.star false (.cls notNLC))
    (.seq (numRE 1) (.seq wsStar (.seq (.opt true (chRE '+'))
      (.seq wsStar (.seq (litRE "year") (.opt true (chRE 's'))))))))

/-- `(?P<years>\d+(?:\.\d+)?)\s*yr[s]?\s+exp` -/
def exp4RE : RE :=
  .seq (numRE 1) (.seq wsStar (.seq (litRE "yr") (.seq (.opt true (chRE 's'))
    (.seq ws1 (litRE "exp")))))

def expPatterns : List RE := [exp1RE, exp2RE, exp3RE, exp4RE]

/-- `[a-zA-Z\s&]` (with IGNORECASE, `[A-Z]` is any letter). -/
def bodyC (c : Char) : Bool := c.isAlpha || pyWsChar c || c = '&'

def letterC (c : Char) : Bool := c.isAlpha

/-- `[–\-]` : en dash or hyphen. -/
def dashC (c : Char) : Bool := c = '-' || c = '–'

/-- `[,\-\s]` -/
def sep2C (c : Char) : Bool := c = ',' || c = '-' || pyWsChar c

/-- `(?:Inc|LLC|Corp|Ltd|Company)` with IGNORECASE. -/
def suffixAlt : RE :=
  altList [litCIRE "inc", litCIRE "llc", litCIRE "corp", litCIRE "ltd", litCIRE "company"]

/-- `(\d{4}\s*[–\-]\s*(?:\d{4}|Present))` as group 2. -/
def tenureA : RE :=
  .group 2 (.seq (digitsN 4) (.seq wsStar (.seq (.cls dashC)
    (.seq wsStar (.alt (digitsN 4) (litCIRE "present"))))))

/-- `([A-Z][a-zA-Z\s&]+(?:Inc|LLC|Corp|Ltd|Company))\s*[,\-\s]*(\d{4}\s*[–\-]\s*(?:\d{4}|Present))`
with IGNORECASE. -/
def cpA : RE :=
  .seq (.group 1 (.seq (.cls letterC) (.seq (clsPlus bodyC) suffixAlt)))
    (.seq wsStar (.seq (clsStar sep2C) tenureA))

/-- `(\d{4}\s*[–\-]\s*(?:\d{4}|Present|Current))` as group 2. -/
def tenureB : RE :=
  .group 2 (.seq (digitsN 4) (.seq wsStar (.seq (.cls dashC)
    (.seq wsStar (.alt (digitsN 4) (.alt (litCIRE "present") (litCIRE "current")))))))

/-- `([A-Z][a-zA-Z\s&]+)\s*[,\-\s]*(\d{4}\s*[–\-]\s*(?:\d{4}|Present|Current))`
with IGNORECASE. -/
def cpB : RE :=
  .seq (.group 1 (.seq (.cls letterC) (clsPlus bodyC)))
    (.seq wsStar (.seq (clsStar sep2C) tenureB))

/-- `[\s:]` -/
def sColC (c : Char) : Bool := pyWsChar c || c = ':'

/-- `[^\n]+` -/
def nonNLplus : RE := clsPlus notNLC

/-- `(?:Technical\s+Skills|Skills|Technologies|Programming\s+Languages)` with
IGNORECASE, alternatives in source order. -/
def hdr1 : RE :=
  altList [.seq (litCIRE "technical") (.seq ws1 (litCIRE "skills")),
           litCIRE "skills", litCIRE "technologies",
           .seq (litCIRE "programming") (.seq ws1 (litCIRE "languages"))]

/-- `(?:Technical\s+Skills|Skills|Technologies|Programming\s+Languages)[\s:]*\n([^\n]+(?:\n[^\n]+)*?)(?:\n\s*\n|\Z)` -/
def sp1 : RE :=
  .seq hdr1 (.seq (clsStar sColC) (.seq (chRE '\n')
    (.seq (.group 1 (.seq nonNLplus (.star false (.seq (chRE '\n') nonNLplus))))
      (.alt (.seq (chRE '\n') (.seq wsStar (chRE '\n'))) .eosRE))))

/-- `(?:Skills|Technologies)[\s:]*([^\n]+)` -/
def sp2 : RE :=
  .seq (.alt (litCIRE "skills") (litCIRE "technologies"))
    (.seq (clsStar sColC) (.group 1 nonNLplus))

/-! ## Extractors (`ResumeParser` methods) -/

/-- `ResumeParser.extract_email`: first match of the email pattern. -/
def extract_email (text : String) : Option String :=
  match findAll emailRE text.data with
  | [] => none
  | m :: _ => some (String.mk (subCL text.data m.mstart m.mend))

/-- `ResumeParser.extract_phone`: first match of the phone pattern. -/
def extract_phone (text : String) : Option String :=
  match findAll phoneRE text.data with
  | [] => none
  | m :: _ => some (String.mk (subCL text.data m.mstart m.mend))

/-- `re.match` of the name pattern against a single (already stripped) line. -/
def nameRegexOK (l : List Char) : Bool :=
  (matchRE nameREfull ⟨0, none, l, []⟩ (fun st => some st)).isSome

/-- The per-line test of `extract_name`:
`len(line) > 3 and len(line.split()) >= 2 and re.match(...)`. -/
def nameLineTest (l : List Char) : Bool :=
  decide (3 < l.length) && decide (2 ≤ countTokens l) && nameRegexOK l

def stripStr (s : String) : String := String.mk (pyStrip s.data)

/-- `ResumeParser.extract_name`: first of the first 5 lines (stripped) that
passes `nameLineTest`. -/
def extract_name (text : String) : Option String :=
  (((splitLines text).take 5).map stripStr).find? (fun l => nameLineTest l.data)

/-- Contribution of one match to `experience_years`:
`years + months/12 + months_only/12` over the participating groups. -/
def expMatchTotal (s : List Char) (m : MatchRes) : Frac :=
  Frac.add (Frac.add
    (match capStr s m.caps 1 with | some y => parseDec y | none => Frac.ofNat 0)
    (match capStr s m.caps 2 with
     | some mo => (parseDec mo).divPos 12 (by decide) | none => Frac.ofNat 0))
    (match capStr s m.caps 3 with
     | some mo => (parseDec mo).divPos 12 (by decide) | none => Frac.ofNat 0)

/-- The list `experience_years` built by `extract_experience_years`:
all totals, over the four patterns in order and their matches in order,
on the lowercased text. -/
def experienceTotals (text : String) : List Frac :=
  let tl := pyLowerCL text.data
  (expPatterns.map (fun p => (findAll p tl).map (expMatchTotal tl))).flatten

/-- `ResumeParser.extract_experience_years`:
`round(max(experience_years), 2) if experience_years else 0.0`. -/
def extract_experience_years (text : String) : Frac :=
  match experienceTotals text with
  | [] => Frac.ofNat 0
  | t :: ts => round2 (ts.foldl Frac.maxF t)

structure CompanyEntry where
  company_name : String
  tenure : String
deriving DecidableEq

/-- The `(company, tenure)` pairs of one pattern, stripped, in match order. -/
def companyPairsOf (r : RE) (s : List Char) : List CompanyEntry :=
  (findAll r s).map (fun m =>
    ⟨String.mk (pyStrip ((capStr s m.caps 1).getD [])),
     String.mk (pyStrip ((capStr s m.caps 2).getD []))⟩)

/-- Order-preserving deduplication by lowercased company name. -/
def dedupCompanies (seen : List String) : List CompanyEntry → List CompanyEntry
  | [] => []
  | e :: r =>
    if seen.contains (pyLowerStr e.company_name) then dedupCompanies seen r
    else e :: dedupCompanies (pyLowerStr e.company_name :: seen) r

/-- `ResumeParser.extract_companies`: both patterns in order, dedup by
lowercased name keeping first occurrence, truncate to 5. -/
def extract_companies (text : String) : List CompanyEntry :=
  (dedupCompanies [] (companyPairsOf cpA text.data ++ companyPairsOf cpB text.data)).take 5

/-- The skill keyword table, flattened in the source's category and list
order (`programming`, `web`, `data`, `cloud`, `databases`). -/
def skillKeywords : List String :=
  ["python", "java", "javascript", "c++", "c#", "php", "ruby", "go",
   "swift", "kotlin", "typescript", "scala", "matlab", "sql",
   "html", "css", "react", "angular", "vue", "node.js", "express",
   "django", "flask", "spring", "laravel", "rails",
   "pandas", "numpy", "scikit-learn", "tensorflow", "pytorch",
   "apache spark", "hadoop", "tableau", "power bi",
   "aws", "azure", "gcp", "docker", "kubernetes", "terraform",
   "mysql", "postgresql", "mongodb", "redis", "cassandra", "oracle"]

/-- `set.add`: append if not already present (insertion-ordered set model). -/
def addUnique (l : List String) (x : String) : List String :=
  if l.contains x then l else l ++ [x]

/-- One step of the taxonomy pass:
`if skill.lower() in text_lower: add(skill.title())`. -/
def taxStep (tl : List Char) (acc : List String) (kw : String) : List String :=
  if containsSub (pyLowerCL kw.data) tl then addUnique acc (pyTitle kw) else acc

/-- The taxonomy pass over the whole keyword table. -/
def taxonomySkills (tl : List Char) : List String :=
  skillKeywords.foldl (taxStep tl) []

/-- Free-text pass tokenisation of one captured section: replace `,` `•` `-`
by spaces, split on `[,\n\|•\-]`, strip, keep length strictly between 2
and 25. -/
def freeTokensOf (captured : List Char) : List String :=
  let replaced := captured.map (fun c => if c = ',' || c = '•' || c = '-' then ' ' else c)
  (((splitOnPred (fun c => c = ',' || c = '\n' || c = '|' || c = '•' || c = '-') replaced).map
      pyStrip).filter (fun t => decide (2 < t.length) && decide (t.length < 25))).map String.mk

/-- Group-1 captures of the two skills-section patterns, in source order. -/
def skillsSectionCaptures (text : String) : List (List Char) :=
  ((findAll sp1 text.data).map (fun m => (capStr text.data m.caps 1).getD [])) ++
  ((findAll sp2 text.data).map (fun m => (capStr text.data m.caps 1).getD []))

/-- Add all free-text tokens of one captured section to the set. -/
def skillAddStep (acc : List String) (cap : List Char) : List String :=
  (freeTokensOf cap).foldl addUnique acc

/-- The full `skills_found` set of `extract_skills` (before the `[:20]`
truncation), as a first-insertion-ordered list. -/
def skillsFoundAll (text : String) : List String :=
  (skillsSectionCaptures text).foldl skillAddStep (taxonomySkills (pyLowerCL text.data))

/-- `ResumeParser.extract_skills`: the found set truncated to 20. -/
def extract_skills (text : String) : List String :=
  (skillsFoundAll text).take 20

/-! ## Segmenter and aggregator (`ResumeParser.parse_resume`) -/

structure ParsedResume where
  name : Option String
  email : Option String
  phone : Option String
  total_experience : Frac
  companies : List CompanyEntry
  skills : List String
  raw_text : String
deriving DecidableEq

inductive SectLabel where
  | skills | experience | nameL | emailL | phoneL | other
deriving DecidableEq

/-- The `clue_words` table, in the source's dict order. -/
def clueTable : List (SectLabel × List String) :=
  [(.skills, ["skills", "technologies", "tools", "proficiencies", "languages",
              "technical proficiency"]),
   (.experience, ["experience", "worked for", "internship", "employment",
                  "project", "work"]),
   (.nameL, ["name"]),
   (.emailL, ["email"]),
   (.phoneL, ["phone", "mobile", "contact", "tel"])]

/-- First label whose clue set has a member occurring in the cleaned line. -/
def classifyLine (cleanLine : List Char) : Option SectLabel :=
  (clueTable.find? (fun pr => pr.2.any (fun clue => containsSub clue.data cleanLine))).map
    (fun pr => pr.1)

structure Buckets where
  skillsB : List String
  experienceB : List String
  nameB : List String
  emailB : List String
  phoneB : List String
  otherB : List String
deriving DecidableEq

def emptyBuckets : Buckets := ⟨[], [], [], [], [], []⟩

def bucketAppend (b : Buckets) (s : SectLabel) (line : String) : Buckets :=
  match s with
  | .skills => { b with skillsB := b.skillsB ++ [line] }
  | .experience => { b with experienceB := b.experienceB ++ [line] }
  | .nameL => { b with nameB := b.nameB ++ [line] }
  | .emailL => { b with emailB := b.emailB ++ [line] }
  | .phoneL => { b with phoneB := b.phoneB ++ [line] }
  | .other => { b with otherB := b.otherB ++ [line] }

/-- The line-classification loop: carry the current section forward, switch it
before appending when some clue matches the stripped lowercased line, and
append the stripped line. -/
def segmentAux : SectLabel → Buckets → List String → Buckets
  | _, b, [] => b
  | cur, b, l :: rest =>
    let stripped := pyStrip l.data
    let nextSect := (classifyLine (pyLowerCL stripped)).getD cur
    segmentAux nextSect (bucketAppend b nextSect (String.mk stripped)) rest

def segmentOf (text : String) : Buckets :=
  segmentAux .other emptyBuckets (splitLines text)

/-- The all-caps fallback test for the name:
`line.strip().isupper() and 1 < len(line.strip().split()) < 5`. -/
def upperFallbackTest (l : List Char) : Bool :=
  pyIsUpper l && decide (1 < countTokens l) && decide (countTokens l < 5)

def nameFallback (ls : List String) : Option String :=
  (ls.find? (fun l => upperFallbackTest (pyStrip l.data))).map stripStr

/-- `ResumeParser.parse_resume` on extracted text (the spec's
`parseDocument`): empty text short-circuits to the all-defaults record;
otherwise segment the lines and run every extractor on its wired input. -/
def parseDocument (text : String) : ParsedResume :=
  if text = "" then
    { name := none, email := none, phone := none, total_experience := Frac.ofNat 0,
      companies := [], skills := [], raw_text := "" }
  else
    let b := segmentOf text
    let name0 := extract_name (pyOr (joinNL (b.nameB.take 5)) text)
    let nm := match name0 with
      | some n => some n
      | none => nameFallback (splitLines text)
    { name := nm,
      email := extract_email (pyOr (joinNL b.emailB) text),
      phone := extract_phone (pyOr (joinNL b.phoneB) text),
      total_experience := extract_experience_years (joinNL b.experienceB),
      companies := extract_companies (joinNL b.experienceB),
      skills := extract_skills (joinNL b.skillsB),
      raw_text := text }

/-! ## Spec-side definitions (for refinement comparisons) and fixed inputs -/

/-- Modelled from the claim's words (C6): a line of 2 to 4 whitespace
separated tokens, each starting uppercase with the rest of the token
letters (lowercase or mixed case). -/
def claimNameShape (line : String) : Bool :=
  let ts := pySplitTokens line.data
  decide (2 ≤ ts.length) && decide (ts.length ≤ 4) &&
    ts.all (fun t =>
      match t with
      | [] => false
      | c :: r => c.isUpper && r.all (fun d => d.isAlpha))

/-- Modelled from the spec's words (C8): a well-formed address
`local@domain.tld` with non-empty local part over alphanumerics plus
`._%+-`, non-empty domain over alphanumerics plus `.-`, and a TLD of at
least two letters. -/
def specWellFormedEmail (lp dm tl : List Char) : Prop :=
  lp ≠ [] ∧ (∀ c ∈ lp, localChar c = true) ∧
  dm ≠ [] ∧ (∀ c ∈ dm, domainChar c = true) ∧
  2 ≤ tl.length ∧ (∀ c ∈ tl, c.isAlpha = true)

/-- The string `local@domain.tld` assembled from its three parts. -/
def specEmailString (lp dm tl : List Char) : String :=
  String.mk (lp ++ '@' :: (dm ++ '.' :: tl))

/-- The scenario input of the spec's final testable property. -/
def janeText : String :=
  "Jane Doe\njane.doe@email.com\n(555) 987-6543\n\nExperience: 7 years of experience\n\nWork History:\nAmazing Company Inc, 2018 - Present\n\nSkills: Python, Django, PostgreSQL"

/-- Seven distinct qualifying company lines. -/
def sevenCompanyText : String :=
  "Alpha Inc, 2010 - 2011\nBeta Inc, 2011 - 2012\nGamma Inc, 2012 - 2013\nDelta Inc, 2013 - 2014\nEpsilon Inc, 2014 - 2015\nZeta Inc, 2015 - 2016\nEta Inc, 2016 - Present"

/-! ## A fuel-free view of greedy class repetition (for the C8 proof) -/

/-- The previous character after consuming `xs`, starting from `d`. -/
def lastO : List Char → Option Char → Option Char
  | [], d => d
  | x :: xs, _ => lastO xs (some x)

/-- Greedy `(cls p)*` as plain structural recursion on the remaining input:
consume as long as `p` holds, preferring the deepest continuation call. -/
def tryStarCls (p : Char → Bool) :
    List Char → Nat → Option Char → List (Nat × Nat × Nat) →
    (MState → Option MState) → Option MState
  | [], pos, prev, caps, k => k ⟨pos, prev, [], caps⟩
  | ch :: rs, pos, prev, caps, k =>
    if p ch then
      match tryStarCls p rs (pos + 1) (some ch) caps k with
      | some m => some m
      | none => k ⟨pos, prev, ch :: rs, caps⟩
    else k ⟨pos, prev, ch :: rs, caps⟩

/-- The `cls` matcher as a named function (so rewriting cannot unfold it
underneath the star iterator's binders). -/
def mbCls (p : Char → Bool) (st : MState) (k : MState → Option MState) : Option MState :=
  match st.rest with
  | [] => none
  | ch :: rs => if p ch then k ⟨st.pos + 1, some ch, rs, st.caps⟩ else none

/-! ## Order lemmas for `Frac` -/

theorem Frac.leF_refl (a : Frac) : a.le a := le_refl _

theorem Frac.leF_trans {a b c : Frac} (h1 : a.le b) (h2 : b.le c) : a.le c := by
  unfold Frac.le at h1 h2 ⊢
  have hb : (0 : Int) < b.den := by exact_mod_cast b.den_pos
  have ha : (0 : Int) ≤ a.den := by positivity
  have hc : (0 : Int) ≤ c.den := by positivity
  refine le_of_mul_le_mul_right ?_ hb
  have h1c := mul_le_mul_of_nonneg_right h1 hc
  have h2a := mul_le_mul_of_nonneg_right h2 ha
  calc a.num * c.den * b.den
      = a.num * b.den * c.den := by ring
    _ ≤ b.num * a.den * c.den := h1c
    _ = b.num * c.den * a.den := by ring
    _ ≤ c.num * b.den * a.den := h2a
    _ = c.num * a.den * b.den := by ring

theorem Frac.le_maxF_left (a b : Frac) : a.le (a.maxF b) := by
  unfold Frac.maxF
  split
  · exact le_of_lt (by assumption)
  · exact Frac.leF_refl a

theorem Frac.le_maxF_right (a b : Frac) : b.le (a.maxF b) := by
  unfold Frac.maxF
  split
  · exact Frac.leF_refl b
  · exact not_lt.mp (by assumption)

theorem Frac.maxF_cases (a b : Frac) : a.maxF b = a ∨ a.maxF b = b := by
  unfold Frac.maxF
  split
  · exact Or.inr rfl
  · exact Or.inl rfl

theorem foldl_maxF_mem :
    ∀ (l : List Frac) (acc : Frac),
      l.foldl Frac.maxF acc = acc ∨ l.foldl Frac.maxF acc ∈ l := by
  intro l
  induction l with
  | nil => intro acc; exact Or.inl rfl
  | cons x xs ih =>
    intro acc
    rw [List.foldl_cons]
    rcases ih (acc.maxF x) with h | h
    · rw [h]
      rcases Frac.maxF_cases acc x with h2 | h2
      · exact Or.inl h2
      · rw [h2]
        exact Or.inr (List.mem_cons_self x xs)
    · exact Or.inr (List.mem_cons_of_mem _ h)

theorem foldl_maxF_ub :
    ∀ (l : List Frac) (acc : Frac),
      acc.le (l.foldl Frac.maxF acc) ∧ ∀ u ∈ l, u.le (l.foldl Frac.maxF acc) := by
  intro l
  induction l with
  | nil => intro acc; exact ⟨Frac.leF_refl acc, by simp⟩
  | cons x xs ih =>
    intro acc
    have h := ih (acc.maxF x)
    constructor
    · exact Frac.leF_trans (Frac.le_maxF_left acc x) h.1
    · intro u hu
      rcases List.mem_cons.mp hu with h2 | h2
      · subst h2
        exact Frac.leF_trans (Frac.le_maxF_right acc u) h.1
      · exact h.2 u h2

/-! ## Claim theorems -/

/-- Claim C1: for every input string, `parseDocument` (the pipeline of
`parse_resume` over the extracted text) terminates and returns a
`ParsedResume` record — totality and freedom from exceptions are witnessed
by `parseDocument` being a total computable Lean function over arbitrary
strings — and the record returned carries the input text back unmodified
in `raw_text`. -/
theorem claim_c1 (text : String) : (parseDocument text).raw_text = text := by
  unfold parseDocument
  by_cases h : text = "" <;> simp [h]

theorem claim_c1_wit : (parseDocument "arbitrary ☂ input").raw_text = "arbitrary ☂ input" :=
  claim_c1 "arbitrary ☂ input"

/-- Claim C2: on empty input, `parseDocument` returns the all-defaults
record (empty raw text, no name, email or phone, zero experience, no
companies, no skills); the short circuit is an ordinary return, not an
error. -/
theorem claim_c2 :
    parseDocument "" =
      { name := none, email := none, phone := none,
        total_experience := Frac.ofNat 0, companies := [], skills := [],
        raw_text := "" } := by
  decide

/-- Claim C3: the experience extractor computes one total
(`years + months/12`) per match of each of the four duration patterns and
returns `round(max(totals), 2)`, or `0.0` when nothing matches:
the result is always either `0` on an empty total list or the rounded
value of a maximal collected total, and on the three spec inputs it
evaluates to `5.0` (maximum, not the sum `8.0`), `0.5`, and `2.5`. -/
theorem claim_c3 :
    extract_experience_years "5 years of experience\n3 years of experience" = fr 5 1 ∧
    extract_experience_years "6 months of experience" = fr 1 2 ∧
    extract_experience_years "2 years and 6 months" = fr 5 2 ∧
    ∀ text : String,
      (experienceTotals text = [] ∧ extract_experience_years text = Frac.ofNat 0) ∨
      ∃ t, t ∈ experienceTotals text ∧ extract_experience_years text = round2 t ∧
        ∀ u ∈ experienceTotals text, u.le t := by
  refine ⟨by decide, by decide, by decide, ?_⟩
  intro text
  cases h : experienceTotals text with
  | nil =>
    left
    refine ⟨rfl, ?_⟩
    unfold extract_experience_years
    rw [h]
  | cons t ts =>
    right
    refine ⟨ts.foldl Frac.maxF t, ?_, ?_, ?_⟩
    · rcases foldl_maxF_mem ts t with h2 | h2
      · rw [h2]; exact List.mem_cons_self t ts
      · exact List.mem_cons_of_mem _ h2
    · unfold extract_experience_years
      rw [h]
    · intro u hu
      rcases List.mem_cons.mp hu with h2 | h2
      · rw [h2]; exact (foldl_maxF_ub ts t).1
      · exact (foldl_maxF_ub ts t).2 u h2

theorem claim_c3_wit :
    (experienceTotals "2 years and 6 months" = [] ∧
      extract_experience_years "2 years and 6 months" = Frac.ofNat 0) ∨
    ∃ t, t ∈ experienceTotals "2 years and 6 months" ∧
      extract_experience_years "2 years and 6 months" = round2 t ∧
      ∀ u ∈ experienceTotals "2 years and 6 months", u.le t :=
  claim_c3.2.2.2 "2 years and 6 months"

/-- Claim C9: on the spec's scenario text, the pipeline returns
name "Jane Doe", email "jane.doe@email.com", phone "(555) 987-6543",
7.0 years of experience, the single company
("Amazing Company Inc", "2018 - Present"), and a skill set containing
"Python", "Django" and "Postgresql". -/
theorem claim_c9 :
    (parseDocument janeText).name = some "Jane Doe" ∧
    (parseDocument janeText).email = some "jane.doe@email.com" ∧
    (parseDocument janeText).phone = some "(555) 987-6543" ∧
    (parseDocument janeText).total_experience = fr 7 1 ∧
    (parseDocument janeText).companies =
      [{ company_name := "Amazing Company Inc", tenure := "2018 - Present" }] ∧
    "Python" ∈ (parseDocument janeText).skills ∧
    "Django" ∈ (parseDocument janeText).skills ∧
    "Postgresql" ∈ (parseDocument janeText).skills := by
  refine ⟨by decide, by decide, ?_, by decide, by decide, by decide, by decide, by decide⟩
  decide

/-! ## Deduplication lemmas for the company extractor -/

theorem dedupCompanies_sound :
    ∀ (l : List CompanyEntry) (seen : List String),
      (dedupCompanies seen l).Pairwise
        (fun a b => pyLowerStr a.company_name ≠ pyLowerStr b.company_name) ∧
      ∀ e ∈ dedupCompanies seen l, seen.contains (pyLowerStr e.company_name) = false := by
  intro l
  induction l with
  | nil =>
    intro seen
    exact ⟨List.Pairwise.nil, by intro e he; cases he⟩
  | cons e r ih =>
    intro seen
    unfold dedupCompanies
    split
    · exact ih seen
    · next hc =>
        have hc2 : seen.contains (pyLowerStr e.company_name) = false := by
          simpa using hc
        have ihh := ih (pyLowerStr e.company_name :: seen)
        constructor
        · refine List.Pairwise.cons ?_ ihh.1
          intro b hb heq
          have h2 := ihh.2 b hb
          rw [List.contains_cons] at h2
          simp only [Bool.or_eq_false_iff, beq_eq_false_iff_ne] at h2
          exact h2.1 heq.symm
        · intro x hx
          rcases List.mem_cons.mp hx with h2 | h2
          · rw [h2]; exact hc2
          · have h3 := ihh.2 x h2
            rw [List.contains_cons] at h3
            simp only [Bool.or_eq_false_iff] at h3
            exact h3.2

/-- Claim C5: company extraction returns trimmed pairs, deduplicated by
lowercased company name keeping the first occurrence, truncated to 5:
the two case-variant "Tech Corp" lines collapse to one entry, seven
distinct qualifying company lines give exactly the first five in
first-seen order, and on every input the result has at most 5 entries
with pairwise distinct lowercased names. -/
theorem claim_c5 :
    extract_companies "Tech Corp, 2020 - Present\nTECH CORP, 2020-Present" =
      [{ company_name := "Tech Corp", tenure := "2020 - Present" }] ∧
    extract_companies sevenCompanyText =
      [{ company_name := "Alpha Inc", tenure := "2010 - 2011" },
       { company_name := "Beta Inc", tenure := "2011 - 2012" },
       { company_name := "Gamma Inc", tenure := "2012 - 2013" },
       { company_name := "Delta Inc", tenure := "2013 - 2014" },
       { company_name := "Epsilon Inc", tenure := "2014 - 2015" }] ∧
    ∀ text : String,
      (extract_companies text).length ≤ 5 ∧
      (extract_companies text).Pairwise
        (fun a b => pyLowerStr a.company_name ≠ pyLowerStr b.company_name) := by
  refine ⟨by decide, by decide, ?_⟩
  intro text
  constructor
  · unfold extract_companies
    rw [List.length_take]
    exact min_le_left 5 _
  · unfold extract_companies
    exact List.Pairwise.sublist (List.take_sublist 5 _) (dedupCompanies_sound _ []).1

theorem claim_c5_wit :
    (extract_companies "no companies here").length ≤ 5 ∧
    (extract_companies "no companies here").Pairwise
      (fun a b => pyLowerStr a.company_name ≠ pyLowerStr b.company_name) :=
  (claim_c5.2.2) "no companies here"

/-! ## Counterexample and amended wiring for claim C4 -/

/-- Claim C4, counterexample: the claim says the skill extractor falls back
to the full raw text when the skills bucket is empty.  On input "python"
the skills bucket is empty, yet the pipeline returns no skills at all,
while running the skill extractor on the full text would return "Python":
the fallback does not exist for the skill extractor. -/
theorem claim_c4_cex :
    (parseDocument "python").skills = [] ∧ extract_skills "python" = ["Python"] := by
  decide

/-- Claim C4, amended: only the name, email and phone extractors fall back
to the full raw text (when their joined bucket text is empty; the name
extractor is fed the bucket's first 5 lines); the experience-duration,
company and skill extractors always run on their joined bucket text,
with no fallback. -/
theorem claim_c4_amend (text : String) (h : text ≠ "") :
    (parseDocument text).email =
      extract_email (pyOr (joinNL (segmentOf text).emailB) text) ∧
    (parseDocument text).phone =
      extract_phone (pyOr (joinNL (segmentOf text).phoneB) text) ∧
    (parseDocument text).name =
      (match extract_name (pyOr (joinNL ((segmentOf text).nameB.take 5)) text) with
       | some n => some n
       | none => nameFallback (splitLines text)) ∧
    (parseDocument text).total_experience =
      extract_experience_years (joinNL (segmentOf text).experienceB) ∧
    (parseDocument text).companies =
      extract_companies (joinNL (segmentOf text).experienceB) ∧
    (parseDocument text).skills = extract_skills (joinNL (segmentOf text).skillsB) := by
  unfold parseDocument
  rw [if_neg h]
  exact ⟨rfl, rfl, rfl, rfl, rfl, rfl⟩

theorem claim_c4_amend_wit :
    (parseDocument "python").email =
      extract_email (pyOr (joinNL (segmentOf "python").emailB) "python") ∧
    (parseDocument "python").phone =
      extract_phone (pyOr (joinNL (segmentOf "python").phoneB) "python") ∧
    (parseDocument "python").name =
      (match extract_name (pyOr (joinNL ((segmentOf "python").nameB.take 5)) "python") with
       | some n => some n
       | none => nameFallback (splitLines "python")) ∧
    (parseDocument "python").total_experience =
      extract_experience_years (joinNL (segmentOf "python").experienceB) ∧
    (parseDocument "python").companies =
      extract_companies (joinNL (segmentOf "python").experienceB) ∧
    (parseDocument "python").skills =
      extract_skills (joinNL (segmentOf "python").skillsB) :=
  claim_c4_amend "python" (by decide)

/-! ## Counterexample and amended shape for claim C6 -/

/-- Claim C6, counterexample: "Anna Maria Luisa Rossi" has 4 tokens, each
starting uppercase with the rest letters, so it matches the claim's
"2 to 4 token" shape; yet the name extractor rejects it (the regex admits
only 2 or 3 tokens) and the all-caps fallback rejects it too, so the
pipeline returns no name at all. -/
theorem claim_c6_cex :
    claimNameShape "Anna Maria Luisa Rossi" = true ∧
    extract_name "Anna Maria Luisa Rossi" = none ∧
    (parseDocument "Anna Maria Luisa Rossi").name = none := by
  decide

/-- Claim C6, amended: name resolution returns the first among the first 5
lines of its input (stripped) that passes the per-line test — length
above 3, at least 2 whitespace tokens, and the 2-or-3-token regex
`^[A-Z][a-zA-Z]+\s+[A-Z][a-zA-Z]+(?:\s+[A-Z][a-zA-Z]+)?$` (not 2-4 tokens:
a 4-token capitalized line is rejected); if no line passes, the first
line of the full document that is entirely uppercase with between 2 and
4 whitespace-separated tokens is used; `None` when both passes fail. -/
theorem claim_c6_amend :
    (∀ text : String, extract_name text = none ↔
      ∀ l ∈ ((splitLines text).take 5).map stripStr, nameLineTest l.data = false) ∧
    (∀ text nm, extract_name text = some nm →
      nameLineTest nm.data = true ∧ nm ∈ ((splitLines text).take 5).map stripStr) ∧
    extract_name "John Smith" = some "John Smith" ∧
    extract_name "John Smith\nJane Roe" = some "John Smith" ∧
    extract_name "Bad line\nJohn Michael Smith" = some "John Michael Smith" ∧
    extract_name "Anna Maria Luisa Rossi" = none ∧
    extract_name "a\nb\nc\nd\ne\nJohn Smith" = none ∧
    (parseDocument "J SMITH\nplus more").name = some "J SMITH" ∧
    (parseDocument "xyz").name = none := by
  refine ⟨?_, ?_, by decide, by decide, by decide, by decide, by decide, by decide, by decide⟩
  · intro text
    unfold extract_name
    rw [List.find?_eq_none]
    constructor
    · intro h l hl
      have h2 := h l hl
      simpa using h2
    · intro h x hx
      simp [h x hx]
  · intro text nm h
    unfold extract_name at h
    have hp := List.find?_some h
    have hm := List.mem_of_find?_eq_some h
    exact ⟨hp, hm⟩

theorem claim_c6_amend_wit :
    nameLineTest "John Smith".data = true ∧
    "John Smith" ∈ ((splitLines "John Smith").take 5).map stripStr :=
  claim_c6_amend.2.1 "John Smith" "John Smith" (by decide)

/-! ## Counterexample and amended tokenisation for claim C7 -/

theorem freeTokensOf_length {cap : List Char} {t : String}
    (ht : t ∈ freeTokensOf cap) : 2 < t.length ∧ t.length < 25 := by
  unfold freeTokensOf at ht
  rcases List.mem_map.mp ht with ⟨l, hl, rfl⟩
  have h2 := (List.mem_filter.mp hl).2
  simp only [Bool.and_eq_true, decide_eq_true_eq] at h2
  exact h2

/-- Claim C7, counterexample: the claim says the free-text pass splits the
captured section on commas (among others) and would keep "Abcd" and
"Efgh" from the line "Skills: Abcd, Efgh".  The code replaces commas by
spaces before splitting, so the whole glued token "Abcd  Efgh" is kept
instead, and neither "Abcd" nor "Efgh" is produced. -/
theorem claim_c7_cex :
    extract_skills "Skills: Abcd, Efgh" = ["Abcd  Efgh"] := by
  decide

/-- Claim C7, amended: the free-text pass first replaces commas, bullets
and hyphens by spaces in the captured text and then splits on
`[,\n\|•\-]` — so effectively only on newlines and pipes — keeping each
trimmed token exactly when its length is strictly between 2 and 25, case
preserved.  A skills line "Python, Django" contributes the single glued
token "Python  Django" ("Python" and "Django" themselves still appear,
via the taxonomy pass); a pipe-separated line is split. -/
theorem claim_c7_amend :
    ("Python  Django" ∈ extract_skills "Skills: Python, Django" ∧
     "Python" ∈ extract_skills "Skills: Python, Django" ∧
     "Django" ∈ extract_skills "Skills: Python, Django") ∧
    extract_skills "Skills: Abc|Def" = ["Abc", "Def"] ∧
    extract_skills "Skills:\nPython\nDjango\n\nOther" = ["Python", "Go", "Django"] ∧
    ∀ (cap : List Char) (t : String),
      t ∈ freeTokensOf cap → 2 < t.length ∧ t.length < 25 := by
  refine ⟨by decide, by decide, by decide, ?_⟩
  intro cap t ht
  exact freeTokensOf_length ht

theorem claim_c7_amend_wit :
    2 < "Abcd  Efgh".length ∧ "Abcd  Efgh".length < 25 :=
  claim_c7_amend.2.2.2 "Abcd, Efgh".data "Abcd  Efgh" (by decide)

/-! ## Substring and set-membership lemmas for claim C10 -/

theorem isPrefixOf_iff_append :
    ∀ (a b : List Char), a.isPrefixOf b = true ↔ ∃ t, b = a ++ t := by
  intro a
  induction a with
  | nil =>
    intro b
    simp [List.isPrefixOf]
  | cons x xs ih =>
    intro b
    cases b with
    | nil => simp [List.isPrefixOf]
    | cons y ys =>
      simp only [List.isPrefixOf, Bool.and_eq_true, beq_iff_eq, ih ys]
      constructor
      · rintro ⟨rfl, t, rfl⟩
        exact ⟨t, rfl⟩
      · rintro ⟨t, ht⟩
        cases ht
        exact ⟨rfl, t, rfl⟩

theorem containsSub_iff_parts :
    ∀ (n h : List Char), containsSub n h = true ↔ ∃ pre post, h = pre ++ n ++ post := by
  intro n h
  induction h with
  | nil =>
    constructor
    · intro hh
      have hn : n = [] := by
        cases n with
        | nil => rfl
        | cons c r => simp [containsSub, List.isEmpty] at hh
      exact ⟨[], [], by simp [hn]⟩
    · rintro ⟨pre, post, he⟩
      have h1 := List.append_eq_nil.mp he.symm
      have h2 : n = [] := (List.append_eq_nil.mp h1.1).2
      simp [containsSub, h2, List.isEmpty]
  | cons c r ih =>
    simp only [containsSub, Bool.or_eq_true]
    constructor
    · intro hh
      rcases hh with hp | hrec
      · rcases (isPrefixOf_iff_append n (c :: r)).mp hp with ⟨t, ht⟩
        exact ⟨[], t, by simp [ht]⟩
      · rcases ih.mp hrec with ⟨pre, post, he⟩
        exact ⟨c :: pre, post, by simp [he]⟩
    · rintro ⟨pre, post, he⟩
      cases pre with
      | nil =>
        left
        exact (isPrefixOf_iff_append n (c :: r)).mpr ⟨post, by simpa using he⟩
      | cons p ps =>
        right
        have he2 : c = p ∧ r = ps ++ n ++ post := by
          simpa using he
        exact ih.mpr ⟨ps, post, he2.2⟩

theorem containsSub_trans {a b c : List Char}
    (h1 : containsSub a b = true) (h2 : containsSub b c = true) :
    containsSub a c = true := by
  rcases (containsSub_iff_parts a b).mp h1 with ⟨p1, q1, hb⟩
  rcases (containsSub_iff_parts b c).mp h2 with ⟨p2, q2, hc⟩
  apply (containsSub_iff_parts a c).mpr
  refine ⟨p2 ++ p1, q1 ++ q2, ?_⟩
  rw [hc, hb]
  simp

theorem mem_addUnique_of_mem {l : List String} {x : String} (y : String)
    (h : x ∈ l) : x ∈ addUnique l y := by
  unfold addUnique
  split
  · exact h
  · exact List.mem_append_left _ h

theorem self_mem_addUnique (l : List String) (x : String) : x ∈ addUnique l x := by
  unfold addUnique
  split
  · next h => exact List.mem_of_elem_eq_true h
  · exact List.mem_append_right _ (List.mem_singleton.mpr rfl)

theorem mem_foldl_addUnique {x : String} :
    ∀ (ls : List String) (acc : List String), x ∈ acc → x ∈ ls.foldl addUnique acc := by
  intro ls
  induction ls with
  | nil => intro acc h; exact h
  | cons y ys ih =>
    intro acc h
    exact ih (addUnique acc y) (mem_addUnique_of_mem y h)

theorem mem_taxStep_of_mem {tl : List Char} {x : String} (acc : List String)
    (kw : String) (h : x ∈ acc) : x ∈ taxStep tl acc kw := by
  unfold taxStep
  split
  · exact mem_addUnique_of_mem _ h
  · exact h

theorem mem_foldl_taxStep {tl : List Char} {x : String} :
    ∀ (kws : List String) (acc : List String), x ∈ acc → x ∈ kws.foldl (taxStep tl) acc := by
  intro kws
  induction kws with
  | nil => intro acc h; exact h
  | cons k ks ih =>
    intro acc h
    exact ih (taxStep tl acc k) (mem_taxStep_of_mem acc k h)

theorem mem_foldl_taxStep_of_kw {tl : List Char} :
    ∀ (kws : List String) (acc : List String) (kw : String), kw ∈ kws →
      containsSub (pyLowerCL kw.data) tl = true →
      pyTitle kw ∈ kws.foldl (taxStep tl) acc := by
  intro kws
  induction kws with
  | nil => intro acc kw h; cases h
  | cons k ks ih =>
    intro acc kw hm hc
    rcases List.mem_cons.mp hm with h2 | h2
    · subst h2
      apply mem_foldl_taxStep ks
      unfold taxStep
      rw [if_pos hc]
      exact self_mem_addUnique acc (pyTitle kw)
    · exact ih (taxStep tl acc k) kw h2 hc

theorem mem_foldl_skillAddStep {x : String} :
    ∀ (caps : List (List Char)) (acc : List String),
      x ∈ acc → x ∈ caps.foldl skillAddStep acc := by
  intro caps
  induction caps with
  | nil => intro acc h; exact h
  | cons cap cs ih =>
    intro acc h
    exact ih _ (mem_foldl_addUnique _ _ h)

theorem mem_skillsFoundAll_of_taxonomy {text : String} {x : String}
    (h : x ∈ taxonomySkills (pyLowerCL text.data)) : x ∈ skillsFoundAll text := by
  unfold skillsFoundAll
  exact mem_foldl_skillAddStep _ _ h

/-- Claim C10: the taxonomy pass matches keywords as plain substrings of the
lowercased text, with no word-boundary check: whenever the lowercased
input contains a keyword, the title-cased keyword lands in the
`skills_found` set; in particular "django" also brings in "Go", and
"javascript" brings in both "Java" and "Javascript". -/
theorem claim_c10 :
    (∀ text : String, ∀ kw ∈ skillKeywords,
      containsSub (pyLowerCL kw.data) (pyLowerCL text.data) = true →
      pyTitle kw ∈ skillsFoundAll text) ∧
    (∀ text : String, containsSub "django".data (pyLowerCL text.data) = true →
      "Go" ∈ skillsFoundAll text) ∧
    (∀ text : String, containsSub "javascript".data (pyLowerCL text.data) = true →
      "Java" ∈ skillsFoundAll text ∧ "Javascript" ∈ skillsFoundAll text) := by
  have base : ∀ text : String, ∀ kw ∈ skillKeywords,
      containsSub (pyLowerCL kw.data) (pyLowerCL text.data) = true →
      pyTitle kw ∈ skillsFoundAll text := by
    intro text kw hkw hc
    exact mem_skillsFoundAll_of_taxonomy (mem_foldl_taxStep_of_kw skillKeywords [] kw hkw hc)
  refine ⟨base, ?_, ?_⟩
  · intro text h
    have hgo : containsSub (pyLowerCL "go".data) (pyLowerCL text.data) = true :=
      containsSub_trans (by decide) h
    have := base text "go" (by decide) hgo
    simpa using this
  · intro text h
    constructor
    · have hj : containsSub (pyLowerCL "java".data) (pyLowerCL text.data) = true :=
        containsSub_trans (by decide) h
      have := base text "java" (by decide) hj
      simpa using this
    · have hj : containsSub (pyLowerCL "javascript".data) (pyLowerCL text.data) = true :=
        containsSub_trans (by decide) h
      have := base text "javascript" (by decide) hj
      simpa using this

theorem claim_c10_wit :
    "Go" ∈ skillsFoundAll "i use django" :=
  claim_c10.2.1 "i use django" (by decide)

/-! ## The email pattern on a whole well-formed address (claim C8) -/

theorem matchRE_seq (a b : RE) (st : MState) (k : MState → Option MState) :
    matchRE (.seq a b) st k = matchRE a st (fun st2 => matchRE b st2 k) := rfl

theorem matchRE_wordB (st : MState) (k : MState → Option MState) :
    matchRE .wordB st k =
      if isWordO st.prev != isWordO st.rest.head? then k st else none := rfl

theorem matchRE_cls_cons (p : Char → Bool) (c : Char) (rs : List Char)
    (pos : Nat) (prev : Option Char) (caps : List (Nat × Nat × Nat))
    (k : MState → Option MState) :
    matchRE (.cls p) ⟨pos, prev, c :: rs, caps⟩ k =
      if p c then k ⟨pos + 1, some c, rs, caps⟩ else none := rfl

theorem matchRE_cls_nil (p : Char → Bool) (pos : Nat) (prev : Option Char)
    (caps : List (Nat × Nat × Nat)) (k : MState → Option MState) :
    matchRE (.cls p) ⟨pos, prev, [], caps⟩ k = none := rfl

theorem matchRE_star_mb (g : Bool) (body : RE) (st : MState) (k : MState → Option MState) :
    matchRE (.star g body) st k =
      starIter g (fun st2 k2 => matchRE body st2 k2) (st.rest.length + 1) st k := rfl

theorem matchRE_star_cls (p : Char → Bool) (st : MState) (k : MState → Option MState) :
    matchRE (.star true (.cls p)) st k =
      starIter true (mbCls p) (st.rest.length + 1) st k := rfl

theorem starIter_cls_eq (p : Char → Bool) :
    ∀ (rest : List Char) (f : Nat), rest.length < f →
      ∀ (pos : Nat) (prev : Option Char) (caps : List (Nat × Nat × Nat))
        (k : MState → Option MState),
      starIter true (mbCls p) f ⟨pos, prev, rest, caps⟩ k
        = tryStarCls p rest pos prev caps k := by
  intro rest
  induction rest with
  | nil =>
    intro f hf pos prev caps k
    match f, hf with
    | f + 1, _ => simp [starIter, mbCls, tryStarCls]
  | cons ch rs ih =>
    intro f hf pos prev caps k
    match f, hf with
    | f + 1, hf =>
      have hlt : rs.length < f := by
        simp only [List.length_cons] at hf
        omega
      simp only [starIter, mbCls]
      by_cases hp : p ch
      · rw [if_pos hp]
        simp only [Nat.lt_succ_self, if_pos]
        rw [ih f hlt (pos + 1) (some ch) caps k]
        simp [tryStarCls, hp]
      · rw [if_neg hp]
        simp [tryStarCls, hp]

theorem matchRE_clsStar_eq (p : Char → Bool) (st : MState) (k : MState → Option MState) :
    matchRE (clsStar p) st k = tryStarCls p st.rest st.pos st.prev st.caps k := by
  rw [show clsStar p = .star true (.cls p) from rfl, matchRE_star_cls]
  exact starIter_cls_eq p st.rest (st.rest.length + 1) (Nat.lt_succ_self _)
    st.pos st.prev st.caps k

theorem lastO_cons (x : Char) (xs : List Char) (d : Option Char) :
    lastO (x :: xs) d = lastO xs (some x) := rfl

/-- Skipping a run of class characters: if the continuation of the star at
the far end of the run succeeds, the greedy star returns that success. -/
theorem tryStarCls_skip (p : Char → Bool) :
    ∀ (xs rest : List Char) (pos : Nat) (prev : Option Char)
      (caps : List (Nat × Nat × Nat)) (k : MState → Option MState) (m : MState),
      (∀ x ∈ xs, p x = true) →
      tryStarCls p rest (pos + xs.length) (lastO xs prev) caps k = some m →
      tryStarCls p (xs ++ rest) pos prev caps k = some m := by
  intro xs
  induction xs with
  | nil =>
    intro rest pos prev caps k m _ h
    simpa [lastO] using h
  | cons x xs2 ih =>
    intro rest pos prev caps k m hall h
    have hx : p x = true := hall x (List.mem_cons_self x xs2)
    have hrec := ih rest (pos + 1) (some x) caps k m
      (fun y hy => hall y (List.mem_cons_of_mem x hy))
      (by
        have harr : pos + 1 + xs2.length = pos + (x :: xs2).length := by
          simp [List.length_cons]; omega
        rw [harr, ← lastO_cons x xs2 prev]
        exact h)
    rw [List.cons_append]
    simp only [tryStarCls]
    rw [if_pos hx, hrec]

/-- A run of class characters on which the continuation always fails:
the greedy star fails overall. -/
theorem tryStarCls_none (p : Char → Bool) :
    ∀ (xs : List Char) (pos : Nat) (prev : Option Char)
      (caps : List (Nat × Nat × Nat)) (k : MState → Option MState),
      (∀ x ∈ xs, p x = true) →
      (∀ (pos2 : Nat) (prev2 : Option Char) (suf : List Char), suf <:+ xs →
        k ⟨pos2, prev2, suf, caps⟩ = none) →
      tryStarCls p xs pos prev caps k = none := by
  intro xs
  induction xs with
  | nil =>
    intro pos prev caps k _ hk
    exact hk pos prev [] (List.suffix_refl [])
  | cons x xs2 ih =>
    intro pos prev caps k hall hk
    have hx : p x = true := hall x (List.mem_cons_self x xs2)
    have hrec := ih (pos + 1) (some x) caps k
      (fun y hy => hall y (List.mem_cons_of_mem x hy))
      (fun pos2 prev2 suf hs =>
        hk pos2 prev2 suf (hs.trans (List.suffix_cons x xs2)))
    simp only [tryStarCls]
    rw [if_pos hx, hrec]
    exact hk pos prev (x :: xs2) (List.suffix_refl _)

theorem tryStarCls_nil (p : Char → Bool) (pos : Nat) (prev : Option Char)
    (caps : List (Nat × Nat × Nat)) (k : MState → Option MState) :
    tryStarCls p [] pos prev caps k = k ⟨pos, prev, [], caps⟩ := rfl

theorem tryStarCls_cons (p : Char → Bool) (ch : Char) (rs : List Char) (pos : Nat)
    (prev : Option Char) (caps : List (Nat × Nat × Nat)) (k : MState → Option MState) :
    tryStarCls p (ch :: rs) pos prev caps k =
      if p ch then
        match tryStarCls p rs (pos + 1) (some ch) caps k with
        | some m2 => some m2
        | none => k ⟨pos, prev, ch :: rs, caps⟩
      else k ⟨pos, prev, ch :: rs, caps⟩ := rfl

/-! Character-class facts used by the email pattern. -/

theorem tldChar_of_alpha {x : Char} (h : x.isAlpha = true) : tldChar x = true := by
  simp [tldChar, h]

theorem domainChar_of_alpha {x : Char} (h : x.isAlpha = true) : domainChar x = true := by
  simp [domainChar, Char.isAlphanum, h]

theorem isWordChar_of_alpha {x : Char} (h : x.isAlpha = true) : isWordChar x = true := by
  simp [isWordChar, Char.isAlphanum, h]

theorem alpha_ne_dot {x : Char} (h : x.isAlpha = true) : decide (x = '.') = false := by
  apply decide_eq_false
  intro he
  subst he
  exact absurd h (by decide)

theorem isWordO_lastO_alpha :
    ∀ (xs : List Char) (d : Char), (∀ x ∈ xs, x.isAlpha = true) → d.isAlpha = true →
      isWordO (lastO xs (some d)) = true := by
  intro xs
  induction xs with
  | nil =>
    intro d _ hd
    simp [lastO, isWordO, isWordChar_of_alpha hd]
  | cons x xs2 ih =>
    intro d hall _
    rw [lastO_cons]
    exact ih x (fun y hy => hall y (List.mem_cons_of_mem x hy))
      (hall x (List.mem_cons_self x xs2))

/-! The email pattern succeeding on a whole well-formed address, stage by
stage from the TLD backwards. -/

theorem emailTldStage (t1 t2 : Char) (ts : List Char) (pos : Nat) (prev : Option Char)
    (caps : List (Nat × Nat × Nat)) (k : MState → Option MState) (m : MState)
    (h1 : t1.isAlpha = true) (h2 : t2.isAlpha = true)
    (hts : ∀ x ∈ ts, x.isAlpha = true)
    (hk : k ⟨pos + 2 + ts.length, lastO ts (some t2), [], caps⟩ = some m) :
    matchRE (.seq (.seq (.cls tldChar) (clsPlus tldChar)) .wordB)
      ⟨pos, prev, t1 :: t2 :: ts, caps⟩ k = some m := by
  rw [matchRE_seq, matchRE_seq, matchRE_cls_cons, if_pos (tldChar_of_alpha h1)]
  rw [show clsPlus tldChar = .seq (.cls tldChar) (clsStar tldChar) from rfl,
    matchRE_seq, matchRE_cls_cons, if_pos (tldChar_of_alpha h2)]
  rw [matchRE_clsStar_eq]
  have hinner :
      tryStarCls tldChar [] (pos + 1 + 1 + ts.length) (lastO ts (some t2)) caps
        (fun st2 => matchRE .wordB st2 k) = some m := by
    rw [tryStarCls_nil]
    rw [matchRE_wordB]
    simp only [List.head?_nil]
    rw [show isWordO (lastO ts (some t2)) = true from isWordO_lastO_alpha ts t2 hts h2]
    rw [if_pos (by decide)]
    rw [show pos + 1 + 1 + ts.length = pos + 2 + ts.length by omega]
    exact hk
  have hskip := tryStarCls_skip tldChar ts [] (pos + 1 + 1) (some t2) caps
    (fun st2 => matchRE .wordB st2 k) m (fun x hx => tldChar_of_alpha (hts x hx)) hinner
  rw [List.append_nil] at hskip
  exact hskip

theorem emailDotStage (t1 t2 : Char) (ts : List Char) (pos : Nat) (prev : Option Char)
    (caps : List (Nat × Nat × Nat)) (k : MState → Option MState) (m : MState)
    (h1 : t1.isAlpha = true) (h2 : t2.isAlpha = true)
    (hts : ∀ x ∈ ts, x.isAlpha = true)
    (hk : k ⟨pos + 3 + ts.length, lastO ts (some t2), [], caps⟩ = some m) :
    matchRE (.seq (chRE '.') (.seq (.seq (.cls tldChar) (clsPlus tldChar)) .wordB))
      ⟨pos, prev, '.' :: t1 :: t2 :: ts, caps⟩ k = some m := by
  rw [matchRE_seq, show chRE '.' = RE.cls (fun x => decide (x = '.')) from rfl,
    matchRE_cls_cons, if_pos (by decide)]
  apply emailTldStage t1 t2 ts (pos + 1) (some '.') caps k m h1 h2 hts
  rw [show pos + 1 + 2 + ts.length = pos + 3 + ts.length by omega]
  exact hk

theorem emailDomainStage (d : Char) (dr : List Char) (t1 t2 : Char) (ts : List Char)
    (pos : Nat) (prev : Option Char) (caps : List (Nat × Nat × Nat))
    (k : MState → Option MState) (m : MState)
    (hdm : ∀ x ∈ d :: dr, domainChar x = true)
    (h1 : t1.isAlpha = true) (h2 : t2.isAlpha = true)
    (hts : ∀ x ∈ ts, x.isAlpha = true)
    (hk : k ⟨pos + 1 + dr.length + 3 + ts.length, lastO ts (some t2), [], caps⟩ = some m) :
    matchRE (.seq (clsPlus domainChar)
        (.seq (chRE '.') (.seq (.seq (.cls tldChar) (clsPlus tldChar)) .wordB)))
      ⟨pos, prev, (d :: dr) ++ '.' :: t1 :: t2 :: ts, caps⟩ k = some m := by
  rw [matchRE_seq,
    show clsPlus domainChar = .seq (.cls domainChar) (clsStar domainChar) from rfl,
    matchRE_seq, List.cons_append, matchRE_cls_cons,
    if_pos (hdm d (List.mem_cons_self d dr))]
  rw [matchRE_clsStar_eq]
  apply tryStarCls_skip domainChar dr ('.' :: t1 :: t2 :: ts) (pos + 1) (some d) caps _ m
    (fun y hy => hdm y (List.mem_cons_of_mem d hy))
  rw [tryStarCls_cons, if_pos (by decide : domainChar '.' = true)]
  have hnone :
      tryStarCls domainChar (t1 :: t2 :: ts) (pos + 1 + dr.length + 1) (some '.') caps
        (fun st2 =>
          matchRE (.seq (chRE '.') (.seq (.seq (.cls tldChar) (clsPlus tldChar)) .wordB))
            st2 k) = none := by
    apply tryStarCls_none
    · intro x hx
      rcases List.mem_cons.mp hx with h | h
      · rw [h]; exact domainChar_of_alpha h1
      rcases List.mem_cons.mp h with h3 | h3
      · rw [h3]; exact domainChar_of_alpha h2
      · exact domainChar_of_alpha (hts x h3)
    · intro pos2 prev2 suf hs
      rw [matchRE_seq, show chRE '.' = RE.cls (fun x => decide (x = '.')) from rfl]
      cases suf with
      | nil => rw [matchRE_cls_nil]
      | cons y ys =>
        have hy : y.isAlpha = true := by
          have hmem : y ∈ t1 :: t2 :: ts := hs.subset (List.mem_cons_self y ys)
          rcases List.mem_cons.mp hmem with h | h
          · rw [h]; exact h1
          rcases List.mem_cons.mp h with h3 | h3
          · rw [h3]; exact h2
          · exact hts y h3
        rw [matchRE_cls_cons, if_neg (by simp [alpha_ne_dot hy])]
  rw [hnone]
  show matchRE (.seq (chRE '.') (.seq (.seq (.cls tldChar) (clsPlus tldChar)) .wordB))
      ⟨pos + 1 + dr.length, lastO dr (some d), '.' :: t1 :: t2 :: ts, caps⟩ k = some m
  exact emailDotStage t1 t2 ts (pos + 1 + dr.length) (lastO dr (some d)) caps k m h1 h2 hts hk

theorem emailMatchFull (c : Char) (lp : List Char) (d : Char) (dr : List Char)
    (t1 t2 : Char) (ts : List Char) (k : MState → Option MState) (m : MState)
    (hw : isWordChar c = true)
    (hlp : ∀ x ∈ c :: lp, localChar x = true)
    (hdm : ∀ x ∈ d :: dr, domainChar x = true)
    (htl : ∀ x ∈ t1 :: t2 :: ts, x.isAlpha = true)
    (hk : k ⟨1 + lp.length + 1 + 1 + dr.length + 3 + ts.length,
             lastO ts (some t2), [], []⟩ = some m) :
    matchRE emailRE
      ⟨0, none, (c :: lp) ++ '@' :: ((d :: dr) ++ '.' :: (t1 :: t2 :: ts)), []⟩ k
      = some m := by
  have h1 : t1.isAlpha = true := htl t1 (List.mem_cons_self _ _)
  have h2 : t2.isAlpha = true := htl t2 (List.mem_cons_of_mem _ (List.mem_cons_self _ _))
  have hts : ∀ x ∈ ts, x.isAlpha = true := fun x hx =>
    htl x (List.mem_cons_of_mem _ (List.mem_cons_of_mem _ hx))
  rw [show emailRE = .seq .wordB (.seq (clsPlus localChar) (.seq (chRE '@')
      (.seq (clsPlus domainChar) (.seq (chRE '.')
        (.seq (.seq (.cls tldChar) (clsPlus tldChar)) .wordB))))) from rfl]
  rw [matchRE_seq, matchRE_wordB]
  simp only [List.cons_append, List.head?_cons, isWordO]
  rw [hw, if_pos (by decide)]
  rw [matchRE_seq, show clsPlus localChar = .seq (.cls localChar) (clsStar localChar) from rfl,
    matchRE_seq, matchRE_cls_cons, if_pos (hlp c (List.mem_cons_self c lp))]
  rw [matchRE_clsStar_eq]
  apply tryStarCls_skip localChar lp ('@' :: ((d :: dr) ++ '.' :: (t1 :: t2 :: ts)))
    1 (some c) [] _ m (fun y hy => hlp y (List.mem_cons_of_mem c hy))
  rw [tryStarCls_cons, if_neg (by decide)]
  rw [matchRE_seq, show chRE '@' = RE.cls (fun x => decide (x = '@')) from rfl,
    matchRE_cls_cons, if_pos (by decide)]
  apply emailDomainStage d dr t1 t2 ts (1 + lp.length + 1) (some '@') [] k m hdm h1 h2 hts
  exact hk

theorem matchRE_email_nil (pos : Nat) (prev : Option Char)
    (caps : List (Nat × Nat × Nat)) (k : MState → Option MState) :
    matchRE emailRE ⟨pos, prev, [], caps⟩ k = none := by
  rw [show emailRE = .seq .wordB (.seq (clsPlus localChar) (.seq (chRE '@')
      (.seq (clsPlus domainChar) (.seq (chRE '.')
        (.seq (.seq (.cls tldChar) (clsPlus tldChar)) .wordB))))) from rfl]
  rw [matchRE_seq, matchRE_wordB]
  split
  · rw [matchRE_seq,
      show clsPlus localChar = .seq (.cls localChar) (clsStar localChar) from rfl,
      matchRE_seq, matchRE_cls_nil]
  · rfl

theorem trySearch_match_some (r : RE) (pos : Nat) (prev : Option Char)
    (rest : List Char) (st : MState)
    (h : matchRE r ⟨pos, prev, rest, []⟩ (fun st2 => some st2) = some st) :
    trySearch r pos prev rest = some ⟨pos, st.pos, st.caps, st.rest, st.prev⟩ := by
  cases rest with
  | nil => rw [trySearch, h]
  | cons ch r2 => rw [trySearch, h]

theorem trySearch_nil_none (r : RE) (pos : Nat) (prev : Option Char)
    (h : matchRE r ⟨pos, prev, [], []⟩ (fun st2 => some st2) = none) :
    trySearch r pos prev [] = none := by
  rw [trySearch, h]

theorem findAllAux_succ (r : RE) (fuel pos : Nat) (prev : Option Char) (rest : List Char) :
    findAllAux r (fuel + 1) pos prev rest =
      match trySearch r pos prev rest with
      | none => []
      | some m =>
        if m.mstart < m.mend then
          m :: findAllAux r fuel m.mend m.prev m.rest
        else
          match m.rest with
          | [] => [m]
          | ch :: r2 => m :: findAllAux r fuel (m.mend + 1) (some ch) r2 := rfl

theorem findAllAux_nil_of_none (r : RE)
    (hnil : ∀ (pos : Nat) (prev : Option Char) (caps : List (Nat × Nat × Nat))
      (k : MState → Option MState), matchRE r ⟨pos, prev, [], caps⟩ k = none) :
    ∀ (fuel pos : Nat) (prev : Option Char), findAllAux r fuel pos prev [] = [] := by
  intro fuel pos prev
  cases fuel with
  | zero => rfl
  | succ f =>
    rw [findAllAux_succ, trySearch_nil_none r pos prev (hnil pos prev [] _)]

/-- A pattern that matches the whole input at position 0 and cannot match
the empty remainder yields exactly one `findall` match spanning the input. -/
theorem findAll_single (r : RE) (s : List Char) (L : Nat) (pv : Option Char)
    (hm : matchRE r ⟨0, none, s, []⟩ (fun st => some st) = some ⟨L, pv, [], []⟩)
    (hL : 0 < L)
    (hnil : ∀ (pos : Nat) (prev : Option Char) (caps : List (Nat × Nat × Nat))
      (k : MState → Option MState), matchRE r ⟨pos, prev, [], caps⟩ k = none) :
    findAll r s = [⟨0, L, [], [], pv⟩] := by
  show findAllAux r (s.length + 1) 0 none s = _
  rw [findAllAux_succ, trySearch_match_some r 0 none s _ hm]
  simp only []
  split
  · rw [findAllAux_nil_of_none r hnil]
  · next hcond => exact absurd hL hcond

/-- An address that fully matches the email pattern is returned unchanged. -/
theorem extract_email_id (c : Char) (lp : List Char) (d : Char) (dr : List Char)
    (t1 t2 : Char) (ts : List Char)
    (hw : isWordChar c = true)
    (hlp : ∀ x ∈ c :: lp, localChar x = true)
    (hdm : ∀ x ∈ d :: dr, domainChar x = true)
    (htl : ∀ x ∈ t1 :: t2 :: ts, x.isAlpha = true) :
    extract_email (specEmailString (c :: lp) (d :: dr) (t1 :: t2 :: ts)) =
      some (specEmailString (c :: lp) (d :: dr) (t1 :: t2 :: ts)) := by
  have hmatch := emailMatchFull c lp d dr t1 t2 ts (fun st => some st)
    ⟨1 + lp.length + 1 + 1 + dr.length + 3 + ts.length, lastO ts (some t2), [], []⟩
    hw hlp hdm htl rfl
  have hfind := findAll_single emailRE
    ((c :: lp) ++ '@' :: ((d :: dr) ++ '.' :: (t1 :: t2 :: ts)))
    (1 + lp.length + 1 + 1 + dr.length + 3 + ts.length) (lastO ts (some t2))
    hmatch (by omega) matchRE_email_nil
  have hlen : 1 + lp.length + 1 + 1 + dr.length + 3 + ts.length
      = ((c :: lp) ++ '@' :: ((d :: dr) ++ '.' :: (t1 :: t2 :: ts))).length := by
    simp [List.length_append, List.length_cons]
    omega
  have hsub : subCL ((c :: lp) ++ '@' :: ((d :: dr) ++ '.' :: (t1 :: t2 :: ts))) 0
      (1 + lp.length + 1 + 1 + dr.length + 3 + ts.length)
      = (c :: lp) ++ '@' :: ((d :: dr) ++ '.' :: (t1 :: t2 :: ts)) := by
    unfold subCL
    rw [List.drop_zero, Nat.sub_zero, hlen]
    exact List.take_length _
  unfold extract_email specEmailString
  show (match findAll emailRE ((c :: lp) ++ '@' :: ((d :: dr) ++ '.' :: (t1 :: t2 :: ts)))
      with
    | [] => none
    | m :: _ => some (String.mk
        (subCL ((c :: lp) ++ '@' :: ((d :: dr) ++ '.' :: (t1 :: t2 :: ts))) m.mstart m.mend)))
    = some (String.mk ((c :: lp) ++ '@' :: ((d :: dr) ++ '.' :: (t1 :: t2 :: ts))))
  rw [hfind]
  simp only []
  rw [hsub]

/-- Claim C8, counterexample: per the spec's grammar, "+a@b.co" is a
well-formed address (local part over alphanumerics plus `._%+-`), yet the
extractor does not return it byte-for-byte: the leading `\b` of the
pattern cannot match before '+', so the returned match drops it. -/
theorem claim_c8_cex :
    specWellFormedEmail ['+', 'a'] ['b'] ['c', 'o'] ∧
    specEmailString ['+', 'a'] ['b'] ['c', 'o'] = "+a@b.co" ∧
    extract_email "+a@b.co" = some "a@b.co" ∧
    some "a@b.co" ≠ some "+a@b.co" := by
  refine ⟨?_, by decide, by decide, by decide⟩
  refine ⟨by decide, by decide, by decide, by decide, by decide, by decide⟩

/-- Claim C8, amended: email extraction returns the first match of the
email pattern in document order, and it is an identity on well-formed
addresses whose first character is a word character (letter, digit or
underscore): for every such address, the extractor returns the address
unchanged, byte-for-byte. -/
theorem claim_c8_amend :
    extract_email "contact a@b.co then c@d.co" = some "a@b.co" ∧
    ∀ (c : Char) (lp dm tl : List Char),
      specWellFormedEmail (c :: lp) dm tl → isWordChar c = true →
      extract_email (specEmailString (c :: lp) dm tl) =
        some (specEmailString (c :: lp) dm tl) := by
  refine ⟨by decide, ?_⟩
  intro c lp dm tl hwf hw
  obtain ⟨-, hlp, hDne, hdm, hTlen, htl⟩ := hwf
  rcases dm with _ | ⟨d, dr⟩
  · exact absurd rfl hDne
  rcases tl with _ | ⟨t1, tl2⟩
  · simp at hTlen
  rcases tl2 with _ | ⟨t2, ts⟩
  · simp at hTlen
  exact extract_email_id c lp d dr t1 t2 ts hw hlp hdm htl

theorem claim_c8_amend_wit :
    extract_email (specEmailString ['j', 'a', 'n', 'e'] ['m', 'a', 'i', 'l'] ['c', 'o', 'm']) =
      some (specEmailString ['j', 'a', 'n', 'e'] ['m', 'a', 'i', 'l'] ['c', 'o', 'm']) :=
  claim_c8_amend.2 'j' ['a', 'n', 'e'] ['m', 'a', 'i', 'l'] ['c', 'o', 'm']
    (by refine ⟨by decide, by decide, by decide, by decide, by decide, by decide⟩) (by decide)

end Resume
